import Mathlib

/-!
Verification of the execution-log aggregator.

The aggregator records "this program ran" events across several physical log
files (one primary, several legacy locations), assigns each event a globally
increasing sequence number, and presents a merged, deduplicated, newest-first
view.  This file gives a shallow embedding of that code and proves the
specified properties about it.

Modelling conventions:
- A physical text line is a `List Char` (`Line`), without its newline
  terminator; a file is a list of such lines.
- A log location is `missing` (the path does not exist), `unreadable`
  (opening or reading it raises, which the scanning code swallows), or
  `readable lines`.
- The state `FS` holds the three known locations, in the order the source
  lists them: the two legacy files and the primary file.
- Python's `line.strip()`, `line.startswith(c)`, `line.split(sep)` and
  `int(s)` are embedded as `stripCh`, `startsHash`, `splitTab` and
  `parsePyInt` below; `list.sort(key=..., reverse=True)` is a stable
  descending sort, embedded with `List.insertionSort` (which is stable).
- Operations that the source wraps in try/except never fail in the
  embedding; the one surfaced failure (the primary file cannot be read
  back for the rewrite) makes `record` return `none`.
-/

namespace NeuroLog

/-- A physical text line, as a character list (newline terminator dropped). -/
abbrev Line := List Char

/-- The whitespace characters stripped by Python's `str.strip()`. -/
def isSpaceCh (c : Char) : Bool :=
  c == ' ' || c == '\t' || c == '\n' || c == '\r' || c == '\x0b' || c == '\x0c'

/-- The ASCII digits accepted by `int()` for the inputs this system writes. -/
def isDigitCh (c : Char) : Bool :=
  decide (48 ≤ c.toNat) && decide (c.toNat ≤ 57)

/-- Remove trailing whitespace. -/
def dropTrailWS (l : Line) : Line := (l.reverse.dropWhile isSpaceCh).reverse

/-- Python's `str.strip()`: remove leading and trailing whitespace. -/
def stripCh (l : Line) : Line := dropTrailWS (l.dropWhile isSpaceCh)

/-- Python's `str.split('\t')`: split on every tab, keeping empty fields. -/
def splitTab : Line → List Line
  | [] => [[]]
  | c :: rest =>
    let r := splitTab rest
    if c = '\t' then [] :: r
    else
      match r with
      | [] => [[c]]
      | f :: fs => (c :: f) :: fs

/-- Python's `line.startswith('#')`. -/
def startsHash (l : Line) : Bool := l.headD ' ' == '#'

/-- Numeric value of an ASCII digit character. -/
def charDigitVal (c : Char) : Nat := c.toNat - 48

/-- Parse an unsigned decimal digit string (no sign, no whitespace). -/
def parseDigits (l : Line) : Option Nat :=
  if l.isEmpty then none
  else if l.all isDigitCh then
    some (l.foldl (fun a c => 10 * a + charDigitVal c) 0)
  else none

/-- Python's `int(s)`: strip whitespace, optional single sign, decimal digits;
`none` models the `ValueError` the source catches. -/
def parsePyInt (l : Line) : Option Int :=
  match stripCh l with
  | [] => none
  | c :: cs =>
    if c = '-' then
      match parseDigits cs with
      | some m => some (-(m : Int))
      | none => none
    else if c = '+' then
      match parseDigits cs with
      | some m => some ((m : Int))
      | none => none
    else
      match parseDigits (c :: cs) with
      | some m => some ((m : Int))
      | none => none

/-- Decimal digit to character (only used for `d < 10`). -/
def digitChar (d : Nat) : Char :=
  match d with
  | 0 => '0' | 1 => '1' | 2 => '2' | 3 => '3' | 4 => '4'
  | 5 => '5' | 6 => '6' | 7 => '7' | 8 => '8' | 9 => '9'
  | _ => '*'

/-- Fuel-driven decimal printing accumulator (structural, so it computes). -/
def natToCharsAux : Nat → Nat → Line → Line
  | 0, _, acc => acc
  | fuel + 1, n, acc =>
    if n < 10 then digitChar n :: acc
    else natToCharsAux fuel (n / 10) (digitChar (n % 10) :: acc)

/-- Decimal representation of a natural number, as Python's `str(n)`. -/
def natToChars (n : Nat) : Line := natToCharsAux (n + 1) n []

/-- Decimal representation of an integer, as Python's `str(i)`. -/
def intToChars : Int → Line
  | Int.ofNat m => natToChars m
  | Int.negSucc m => '-' :: natToChars (m + 1)

/-- One known log location: absent, present but unreadable, or its lines. -/
inductive LocState where
  | missing
  | unreadable
  | readable (lines : List Line)
deriving DecidableEq

/-- The lines a scan sees at a location (none when missing or unreadable,
both of which the source skips with `continue`). -/
def LocState.linesD : LocState → List Line
  | .readable ls => ls
  | _ => []

/-- The file-system state restricted to the three known log paths:
`root` = "program_log.txt", `sub` = "sub/program_log.txt",
`logs` = "logs/program_log.txt" (the primary `LOG_FILE`). -/
structure FS where
  root : LocState
  sub : LocState
  logs : LocState
deriving DecidableEq

/-- `LEGACY_LOG_FILES`, in source order; it includes the primary location. -/
def knownLocations (fs : FS) : List LocState := [fs.root, fs.sub, fs.logs]

/-- Names for the three known locations. -/
inductive Slot where
  | root
  | sub
  | logs
deriving DecidableEq

def FS.get (fs : FS) : Slot → LocState
  | .root => fs.root
  | .sub => fs.sub
  | .logs => fs.logs

def FS.set (fs : FS) : Slot → LocState → FS
  | .root, st => { fs with root := st }
  | .sub, st => { fs with sub := st }
  | .logs, st => { fs with logs := st }

/-- The sequence number the numbering scan (`get_next_call_number`) extracts
from one line: skip blank and comment lines, split the raw line on tabs,
parse the first field as an integer. -/
def lineNumber (l : Line) : Option Int :=
  if (stripCh l).isEmpty || startsHash l then none
  else
    let parts := splitTab l
    if 1 ≤ parts.length then parsePyInt (parts.getD 0 []) else none

/-- The running-maximum fold of `get_next_call_number` over one location. -/
def locMaxFold (m : Int) (loc : LocState) : Int :=
  loc.linesD.foldl (fun m l =>
    match lineNumber l with
    | some n => max m n
    | none => m) m

/-- `get_next_call_number`: highest sequence number found in any known
location (starting from 0), plus one. -/
def get_next_call_number (fs : FS) : Int :=
  ((knownLocations fs).foldl locMaxFold 0) + 1

/-- All sequence numbers the numbering scan finds at one location. -/
def locNumbers (loc : LocState) : List Int := loc.linesD.filterMap lineNumber

/-- All sequence numbers the numbering scan finds, across all locations. -/
def parsedNumbers (fs : FS) : List Int :=
  (knownLocations fs).foldr (fun loc acc => locNumbers loc ++ acc) []

/-- A parsed log entry, as `read_log` builds it. -/
structure Entry where
  number : Int
  date : Line
  time : Line
  filename : Line
  filepath : Line
deriving DecidableEq

/-- The entry `read_log` extracts from one line: skip blank and comment
lines, strip, split on tabs, require at least 4 fields, parse the first as
an integer; the 5th field (the path) defaults to empty. -/
def parseDataLine (l : Line) : Option Entry :=
  if (stripCh l).isEmpty || startsHash l then none
  else
    let parts := splitTab (stripCh l)
    if 4 ≤ parts.length then
      match parsePyInt (parts.getD 0 []) with
      | some n =>
        some { number := n, date := parts.getD 1 [], time := parts.getD 2 [],
               filename := parts.getD 3 [],
               filepath := if 4 < parts.length then parts.getD 4 [] else [] }
      | none => none
    else none

/-- The deduplication identity of an entry: (sequence, date, time, name). -/
abbrev EKey := Int × Line × Line × Line

def entryKey (e : Entry) : EKey := (e.number, e.date, e.time, e.filename)

/-- One step of `read_log`'s collection loop: state is (seen keys, entries
collected so far, in encounter order). -/
def scanLine (st : List EKey × List Entry) (l : Line) : List EKey × List Entry :=
  match parseDataLine l with
  | none => st
  | some e => if entryKey e ∈ st.1 then st else (entryKey e :: st.1, st.2 ++ [e])

def scanLoc (st : List EKey × List Entry) (loc : LocState) : List EKey × List Entry :=
  loc.linesD.foldl scanLine st

def scanAll (fs : FS) : List EKey × List Entry :=
  (knownLocations fs).foldl scanLoc ([], [])

/-- All merged, deduplicated entries, in merge-scan encounter order. -/
def allEntries (fs : FS) : List Entry := (scanAll fs).2

/-- Descending-by-sequence order, for the stable sort
`all_entries.sort(key=..., reverse=True)`. -/
def entryLE (a b : Entry) : Prop := b.number ≤ a.number

instance : DecidableRel entryLE :=
  fun a b => inferInstanceAs (Decidable (b.number ≤ a.number))

instance : IsTotal Entry entryLE := ⟨fun a b => Int.le_total b.number a.number⟩

instance : IsTrans Entry entryLE := ⟨fun _ _ _ hab hbc => le_trans hbc hab⟩

/-- The merged view `read_log` displays: deduplicated entries from all
locations, sorted by sequence number descending (stably). -/
def mergedView (fs : FS) : List Entry := List.insertionSort entryLE (allEntries fs)

/-- `read_log` as a state transformer: it computes the merged view and
performs no writes, so the file state passes through unchanged. -/
def readLog (fs : FS) : List Entry × FS := (mergedView fs, fs)

/-- The three-line header `create_log_file_header` writes. -/
def bannerLine : Line := "# NeuroGames Project - Program Execution Log".toList

def columnsLine : Line := "# CallNumber\tDate\tTime\tFileName\tFullPath".toList

def sepLine : Line := '#' :: List.replicate 80 '='

def headerLines : List Line := [bannerLine, columnsLine, sepLine]

/-- `insert_entry_at_top`'s rewrite: comment lines first (in order), then
the new entry, then the old data lines (in order). -/
def insertTop (content : List Line) (entry : Line) : List Line :=
  content.filter startsHash ++ entry :: content.filter (fun l => !startsHash l)

/-- The tab-joined line `log_execution` formats for an entry. -/
def mkEntryLine (n : Int) (d t nm p : Line) : Line :=
  intToChars n ++ '\t' :: (d ++ '\t' :: (t ++ '\t' :: (nm ++ '\t' :: p)))

/-- `log_execution`'s write path: compute the next number, format the line,
create the primary file with its header when missing, and insert at top.
Returns `none` when the primary file cannot be read back for the rewrite
(the error `log_execution` catches and reports); otherwise the new state
and the assigned sequence number. -/
def record (fs : FS) (d t nm p : Line) : Option (FS × Int) :=
  let n := get_next_call_number fs
  let entry := mkEntryLine n d t nm p
  match fs.logs with
  | .unreadable => none
  | .missing => some ({ fs with logs := .readable (insertTop headerLines entry) }, n)
  | .readable content => some ({ fs with logs := .readable (insertTop content entry) }, n)

/-- The entry record `get_log_stats` builds (it drops the path field). -/
structure StatsEntry where
  number : Int
  date : Line
  time : Line
  filename : Line
deriving DecidableEq

/-- `get_log_stats`'s per-line parse (same logic as `read_log`, minus the
path field). -/
def parseStatsLine (l : Line) : Option StatsEntry :=
  if (stripCh l).isEmpty || startsHash l then none
  else
    let parts := splitTab (stripCh l)
    if 4 ≤ parts.length then
      match parsePyInt (parts.getD 0 []) with
      | some n =>
        some { number := n, date := parts.getD 1 [], time := parts.getD 2 [],
               filename := parts.getD 3 [] }
      | none => none
    else none

def statKey (e : StatsEntry) : EKey := (e.number, e.date, e.time, e.filename)

def statScanLine (st : List EKey × List StatsEntry) (l : Line) :
    List EKey × List StatsEntry :=
  match parseStatsLine l with
  | none => st
  | some e => if statKey e ∈ st.1 then st else (statKey e :: st.1, st.2 ++ [e])

def statScanLoc (st : List EKey × List StatsEntry) (loc : LocState) :
    List EKey × List StatsEntry :=
  loc.linesD.foldl statScanLine st

/-- `get_log_stats`'s own merged collection pass over all locations. -/
def statsAll (fs : FS) : List StatsEntry :=
  ((knownLocations fs).foldl statScanLoc ([], [])).2

def statLE (a b : StatsEntry) : Prop := b.number ≤ a.number

instance : DecidableRel statLE :=
  fun a b => inferInstanceAs (Decidable (b.number ≤ a.number))

instance : IsTotal StatsEntry statLE := ⟨fun a b => Int.le_total b.number a.number⟩

instance : IsTrans StatsEntry statLE := ⟨fun _ _ _ hab hbc => le_trans hbc hab⟩

/-- One update of the `program_counts` dict: increment in place when the
name is present, otherwise append it (insertion order preserved). -/
def bump (cs : List (Line × Nat)) (nm : Line) : List (Line × Nat) :=
  if cs.any (fun pr => pr.1 == nm) then
    cs.map (fun pr => if pr.1 == nm then (pr.1, pr.2 + 1) else pr)
  else cs ++ [(nm, 1)]

/-- The source-name frequency table, built by iterating the given entries
in order. -/
def sourceCounts (es : List StatsEntry) : List (Line × Nat) :=
  es.foldl (fun cs e => bump cs e.filename) []

/-- Descending-by-count order for `sorted(..., key=count, reverse=True)`
(stable). -/
def countLE (a b : Line × Nat) : Prop := b.2 ≤ a.2

instance : DecidableRel countLE :=
  fun a b => inferInstanceAs (Decidable (b.2 ≤ a.2))

instance : IsTotal (Line × Nat) countLE := ⟨fun a b => Nat.le_total b.2 a.2⟩

instance : IsTrans (Line × Nat) countLE := ⟨fun _ _ _ hab hbc => le_trans hbc hab⟩

/-- The statistics report of `get_log_stats`. -/
structure Stats where
  count : Nat
  newestDate : Line
  newestTime : Line
  oldestDate : Line
  oldestTime : Line
  topSources : List (Line × Nat)
deriving DecidableEq

def dfltStat : StatsEntry := ⟨0, [], [], []⟩

/-- `get_log_stats`: collect and deduplicate entries from all locations,
sort descending by sequence, and report count, newest (first), oldest
(last) and the five most frequent source names; `none` is the explicit
"No execution data found" result. -/
def get_log_stats (fs : FS) : Option Stats :=
  let es := List.insertionSort statLE (statsAll fs)
  if es.isEmpty then none
  else
    some { count := es.length
           newestDate := (es.headD dfltStat).date
           newestTime := (es.headD dfltStat).time
           oldestDate := (es.getLastD dfltStat).date
           oldestTime := (es.getLastD dfltStat).time
           topSources := (List.insertionSort countLE (sourceCounts es)).take 5 }

/-- The claim side of C5, following the spec's words: `topSources` with
ties broken by first-encountered order in the merge scan (`statsAll`
order, before the descending sort). -/
def specTopSources (fs : FS) : List (Line × Nat) :=
  (List.insertionSort countLE (sourceCounts (statsAll fs))).take 5

/-- A Python call-stack frame: code object's file name, and the frame one
level down the stack (`f_back`), absent at the bottom. -/
inductive Frame where
  | mk (filename : Line) (back : Option Frame)

def Frame.filename : Frame → Line
  | .mk f _ => f

def Frame.back : Frame → Option Frame
  | .mk _ b => b

/-- Outcome of a Python call: an uncaught exception, or a value. -/
inductive PyResult (α : Type) where
  | raises
  | ok (val : α)
deriving DecidableEq

/-- `os.path.basename`: the part after the last path separator. -/
def basename (l : Line) : Line := (l.reverse.takeWhile (fun c => c ≠ '/')).reverse

def unknownName : Line := "Unknown".toList

/-- `get_caller_info`, over the introspected frame chain: `cur` is what
`inspect.currentframe()` returns.  The source evaluates
`frame.f_back.f_back` unguarded (an attribute access on `None` raises)
and only then checks the result against `None`; the `finally: del frame`
does not stop the exception. -/
def get_caller_info (cur : Option Frame) : PyResult (Line × Line) :=
  match cur with
  | none => .raises
  | some f =>
    match f.back with
    | none => .raises
    | some f1 =>
      match f1.back with
      | none => .ok (unknownName, unknownName)
      | some f2 => .ok (basename f2.filename, f2.filename)

/-! ## Character and digit lemmas -/

theorem isDigitCh_ne {c : Char} (h : isDigitCh c = true) (d : Char)
    (hd : isDigitCh d = false) : c ≠ d := by
  intro e
  subst e
  rw [h] at hd
  cases hd

theorem isDigitCh_not_space {c : Char} (h : isDigitCh c = true) :
    isSpaceCh c = false := by
  simp only [isSpaceCh, Bool.or_eq_false_iff, beq_eq_false_iff_ne, ne_eq]
  refine ⟨⟨⟨⟨⟨?_, ?_⟩, ?_⟩, ?_⟩, ?_⟩, ?_⟩ <;>
    (intro e; subst e; exact absurd h (by decide))

theorem digitChar_isDigit {d : Nat} (h : d < 10) :
    isDigitCh (digitChar d) = true := by
  interval_cases d <;> decide

theorem charDigitVal_digitChar {d : Nat} (h : d < 10) :
    charDigitVal (digitChar d) = d := by
  interval_cases d <;> decide

/-- The digit-string value fold used by `parseDigits`. -/
def lineVal (l : Line) : Nat := l.foldl (fun a c => 10 * a + charDigitVal c) 0

theorem lineVal_append_one (l : Line) (c : Char) :
    lineVal (l ++ [c]) = 10 * lineVal l + charDigitVal c := by
  simp [lineVal, List.foldl_append]

theorem natToCharsAux_acc (fuel : Nat) :
    ∀ n acc, natToCharsAux fuel n acc = natToCharsAux fuel n [] ++ acc := by
  induction fuel with
  | zero => intro n acc; simp [natToCharsAux]
  | succ f ih =>
    intro n acc
    simp only [natToCharsAux]
    by_cases h : n < 10
    · simp [h]
    · simp only [h, if_false]
      rw [ih (n / 10) (digitChar (n % 10) :: acc), ih (n / 10) [digitChar (n % 10)]]
      simp

theorem natToCharsAux_spec (fuel : Nat) :
    ∀ n, n < fuel →
      (natToCharsAux fuel n []).all isDigitCh = true ∧
      natToCharsAux fuel n [] ≠ [] ∧
      lineVal (natToCharsAux fuel n []) = n := by
  induction fuel with
  | zero => intro n h; omega
  | succ f ih =>
    intro n hn
    simp only [natToCharsAux]
    by_cases h : n < 10
    · simp only [h, if_true]
      refine ⟨by simp [digitChar_isDigit h], by simp, ?_⟩
      simp [lineVal, charDigitVal_digitChar h]
    · simp only [h, if_false]
      have hd : n / 10 < f := by omega
      obtain ⟨ha, hne, hv⟩ := ih (n / 10) hd
      rw [natToCharsAux_acc f (n / 10) [digitChar (n % 10)]]
      have hm : n % 10 < 10 := Nat.mod_lt _ (by omega)
      refine ⟨?_, by simp, ?_⟩
      · simp only [List.all_append, ha, Bool.true_and, List.all_cons, List.all_nil,
          Bool.and_true]
        exact digitChar_isDigit hm
      · rw [lineVal_append_one, hv, charDigitVal_digitChar hm]
        omega

theorem natToChars_all_digits (n : Nat) : (natToChars n).all isDigitCh = true :=
  (natToCharsAux_spec (n + 1) n (by omega)).1

theorem natToChars_ne_nil (n : Nat) : natToChars n ≠ [] :=
  (natToCharsAux_spec (n + 1) n (by omega)).2.1

theorem natToChars_val (n : Nat) : lineVal (natToChars n) = n :=
  (natToCharsAux_spec (n + 1) n (by omega)).2.2

theorem parseDigits_natToChars (n : Nat) : parseDigits (natToChars n) = some n := by
  simp only [parseDigits, natToChars_all_digits n, if_true]
  rw [if_neg (by simp [natToChars_ne_nil n])]
  have := natToChars_val n
  simp only [lineVal] at this
  rw [this]

/-! ## dropWhile / strip lemmas -/

theorem dropWhile_eq_self_of_all {p : Char → Bool} (l : Line)
    (h : ∀ c ∈ l, p c = false) : l.dropWhile p = l := by
  cases l with
  | nil => rfl
  | cons c rest => rw [List.dropWhile_cons, if_neg (by simp [h c (List.mem_cons_self _ _)])]

theorem dropWhile_ne_nil_of_exists {p : Char → Bool} (x : Line)
    (h : ∃ c ∈ x, p c = false) : x.dropWhile p ≠ [] := by
  induction x with
  | nil => simp at h
  | cons c rest ih =>
    rw [List.dropWhile_cons]
    by_cases hc : p c = true
    · rw [if_pos hc]
      apply ih
      obtain ⟨d, hd, hdp⟩ := h
      rcases List.mem_cons.mp hd with rfl | hmem
      · rw [hc] at hdp; cases hdp
      · exact ⟨d, hmem, hdp⟩
    · rw [if_neg hc]; simp

theorem dropWhile_append_of_ne_nil {p : Char → Bool} (x y : Line)
    (h : x.dropWhile p ≠ []) : (x ++ y).dropWhile p = x.dropWhile p ++ y := by
  induction x with
  | nil => simp [List.dropWhile] at h
  | cons c rest ih =>
    rw [List.cons_append, List.dropWhile_cons, List.dropWhile_cons]
    by_cases hc : p c = true
    · rw [if_pos hc, if_pos hc]
      rw [List.dropWhile_cons, if_pos hc] at h
      exact ih h
    · rw [if_neg hc, if_neg hc, List.cons_append]

theorem dropTrailWS_append (a b : Line) (h : ∃ c ∈ b, isSpaceCh c = false) :
    dropTrailWS (a ++ b) = a ++ dropTrailWS b := by
  unfold dropTrailWS
  rw [List.reverse_append]
  rw [dropWhile_append_of_ne_nil b.reverse a.reverse
    (dropWhile_ne_nil_of_exists _ (by obtain ⟨c, hc, hcp⟩ := h; exact ⟨c, List.mem_reverse.mpr hc, hcp⟩))]
  rw [List.reverse_append, List.reverse_reverse]

theorem dropTrailWS_of_all (l : Line) (h : ∀ c ∈ l, isSpaceCh c = false) :
    dropTrailWS l = l := by
  unfold dropTrailWS
  rw [dropWhile_eq_self_of_all l.reverse (fun c hc => h c (List.mem_reverse.mp hc))]
  exact l.reverse_reverse

theorem stripCh_of_all (l : Line) (h : ∀ c ∈ l, isSpaceCh c = false) :
    stripCh l = l := by
  unfold stripCh
  rw [dropWhile_eq_self_of_all l h, dropTrailWS_of_all l h]

/-! ## splitTab lemmas -/

theorem splitTab_ne_nil : ∀ l : Line, splitTab l ≠ [] := by
  intro l
  induction l with
  | nil => simp [splitTab]
  | cons c rest ih =>
    simp only [splitTab]
    by_cases h : c = '\t'
    · simp [h]
    · rw [if_neg h]
      cases hr : splitTab rest with
      | nil => exact absurd hr ih
      | cons f fs => simp

theorem splitTab_append_noTab (a b : Line) (h : ∀ c ∈ a, c ≠ '\t') :
    splitTab (a ++ '\t' :: b) = a :: splitTab b := by
  induction a with
  | nil => simp [splitTab]
  | cons c a ih =>
    rw [List.cons_append]
    simp only [splitTab]
    rw [if_neg (h c (List.mem_cons_self _ _))]
    rw [ih (fun x hx => h x (List.mem_cons_of_mem c hx))]

theorem splitTab_noTab (a : Line) (h : ∀ c ∈ a, c ≠ '\t') : splitTab a = [a] := by
  induction a with
  | nil => rfl
  | cons c a ih =>
    simp only [splitTab]
    rw [if_neg (h c (List.mem_cons_self _ _))]
    rw [ih (fun x hx => h x (List.mem_cons_of_mem c hx))]

/-! ## foldl max lemmas -/

theorem foldl_max_init (m0 : Int) (l : List Int) : m0 ≤ l.foldl max m0 := by
  induction l generalizing m0 with
  | nil => simp
  | cons x l ih => exact le_trans (le_max_left m0 x) (ih (max m0 x))

theorem foldl_max_mem (m0 : Int) (l : List Int) : ∀ x ∈ l, x ≤ l.foldl max m0 := by
  induction l generalizing m0 with
  | nil => simp
  | cons y l ih =>
    intro x hx
    rcases List.mem_cons.mp hx with rfl | hmem
    · exact le_trans (le_max_right m0 x) (foldl_max_init _ l)
    · exact ih (max m0 y) x hmem

theorem foldl_max_le (m0 b : Int) (l : List Int) (h0 : m0 ≤ b)
    (h : ∀ x ∈ l, x ≤ b) : l.foldl max m0 ≤ b := by
  induction l generalizing m0 with
  | nil => simpa
  | cons y l ih =>
    exact ih (max m0 y) (max_le h0 (h y (List.mem_cons_self _ _)))
      (fun x hx => h x (List.mem_cons_of_mem y hx))

theorem foldl_max_eq_of_mem (m : Int) (l : List Int) (hm : m ∈ l)
    (hb : ∀ x ∈ l, x ≤ m) (h0 : 0 ≤ m) : l.foldl max 0 = m :=
  le_antisymm (foldl_max_le 0 m l h0 hb) (foldl_max_mem 0 l m hm)

/-! ## Numbering-scan bridge -/

theorem locMaxFold_eq (loc : LocState) :
    ∀ m : Int, locMaxFold m loc = (locNumbers loc).foldl max m := by
  unfold locMaxFold locNumbers
  induction loc.linesD with
  | nil => intro m; rfl
  | cons l ls ih =>
    intro m
    rw [List.foldl_cons, List.filterMap_cons]
    cases h : lineNumber l with
    | none => simp only [h]; exact ih m
    | some n => simp only [h]; rw [List.foldl_cons]; exact ih (max m n)

theorem get_next_eq (fs : FS) :
    get_next_call_number fs = (parsedNumbers fs).foldl max 0 + 1 := by
  unfold get_next_call_number parsedNumbers knownLocations
  simp only [List.foldl_cons, List.foldl_nil, List.foldr_cons, List.foldr_nil,
    locMaxFold_eq, List.append_nil, List.foldl_append]

theorem get_next_pos (fs : FS) : 1 ≤ get_next_call_number fs := by
  rw [get_next_eq]
  have := foldl_max_init 0 (parsedNumbers fs)
  omega

/-! ## Merge-scan lemmas -/

theorem scanLine_skip {l : Line} (h : parseDataLine l = none)
    (st : List EKey × List Entry) : scanLine st l = st := by
  simp [scanLine, h]

/-- Invariant of the collection loop: the seen-key set holds exactly the
keys of the entries collected so far. -/
def ScanInv (st : List EKey × List Entry) : Prop :=
  st.1 = (st.2.map entryKey).reverse

theorem scanLine_inv {st : List EKey × List Entry} (h : ScanInv st) (l : Line) :
    ScanInv (scanLine st l) := by
  unfold scanLine
  cases hp : parseDataLine l with
  | none => exact h
  | some e =>
    by_cases hm : entryKey e ∈ st.1
    · simpa [hm] using h
    · simp only [if_neg hm]
      unfold ScanInv at h ⊢
      simp [h]

theorem foldl_scanLine_inv (ls : List Line) :
    ∀ st, ScanInv st → ScanInv (ls.foldl scanLine st) := by
  induction ls with
  | nil => intro st h; exact h
  | cons l ls ih => intro st h; exact ih _ (scanLine_inv h l)

theorem foldl_scanLoc_inv (locs : List LocState) :
    ∀ st, ScanInv st → ScanInv (locs.foldl scanLoc st) := by
  induction locs with
  | nil => intro st h; exact h
  | cons loc locs ih => intro st h; exact ih _ (foldl_scanLine_inv _ _ h)

theorem scanAll_inv (fs : FS) : ScanInv (scanAll fs) :=
  foldl_scanLoc_inv _ _ (by simp [ScanInv])

theorem scanLine_nodup {st : List EKey × List Entry} (h : st.1.Nodup) (l : Line) :
    (scanLine st l).1.Nodup := by
  unfold scanLine
  cases hp : parseDataLine l with
  | none => exact h
  | some e =>
    by_cases hm : entryKey e ∈ st.1
    · simpa [hm] using h
    · simp only [if_neg hm]
      exact List.Nodup.cons hm h

theorem foldl_scanLine_nodup (ls : List Line) :
    ∀ st : List EKey × List Entry, st.1.Nodup → (ls.foldl scanLine st).1.Nodup := by
  induction ls with
  | nil => intro st h; exact h
  | cons l ls ih => intro st h; exact ih _ (scanLine_nodup h l)

theorem foldl_scanLoc_nodup (locs : List LocState) :
    ∀ st : List EKey × List Entry, st.1.Nodup → (locs.foldl scanLoc st).1.Nodup := by
  induction locs with
  | nil => intro st h; exact h
  | cons loc locs ih => intro st h; exact ih _ (foldl_scanLine_nodup _ _ h)

theorem allEntries_keys_nodup (fs : FS) : ((allEntries fs).map entryKey).Nodup := by
  have hnd : (scanAll fs).1.Nodup := foldl_scanLoc_nodup _ _ (by simp)
  have hinv := scanAll_inv fs
  rw [hinv, List.nodup_reverse] at hnd
  exact hnd

theorem scanLine_keys_mono (st : List EKey × List Entry) (l : Line) :
    st.1 ⊆ (scanLine st l).1 := by
  unfold scanLine
  cases hp : parseDataLine l with
  | none => exact fun x hx => hx
  | some e =>
    by_cases hm : entryKey e ∈ st.1
    · simp only [if_pos hm]; exact fun x hx => hx
    · simp only [if_neg hm]; exact fun x hx => List.mem_cons_of_mem _ hx

theorem foldl_scanLine_keys_mono (ls : List Line) :
    ∀ st : List EKey × List Entry, st.1 ⊆ (ls.foldl scanLine st).1 := by
  induction ls with
  | nil => intro st; exact fun x hx => hx
  | cons l ls ih =>
    intro st
    exact fun x hx => ih (scanLine st l) (scanLine_keys_mono st l hx)

theorem foldl_scanLoc_keys_mono (locs : List LocState) :
    ∀ st : List EKey × List Entry, st.1 ⊆ (locs.foldl scanLoc st).1 := by
  induction locs with
  | nil => intro st; exact fun x hx => hx
  | cons loc locs ih =>
    intro st
    exact fun x hx => ih (scanLoc st loc) (foldl_scanLine_keys_mono _ _ hx)

theorem foldl_scanLine_origin (ls : List Line) :
    ∀ st : List EKey × List Entry, ∀ e ∈ (ls.foldl scanLine st).2,
      e ∈ st.2 ∨ ∃ l ∈ ls, parseDataLine l = some e := by
  induction ls with
  | nil => intro st e he; exact Or.inl he
  | cons l ls ih =>
    intro st e he
    rcases ih (scanLine st l) e he with hin | ⟨l', hl', hp'⟩
    · cases hp : parseDataLine l with
      | none => rw [scanLine_skip hp] at hin; exact Or.inl hin
      | some e' =>
        simp only [scanLine, hp] at hin
        by_cases hm : entryKey e' ∈ st.1
        · rw [if_pos hm] at hin; exact Or.inl hin
        · rw [if_neg hm] at hin
          rcases List.mem_append.mp hin with h1 | h2
          · exact Or.inl h1
          · have : e = e' := by simpa using h2
            subst this
            exact Or.inr ⟨l, List.mem_cons_self _ _, hp⟩
    · exact Or.inr ⟨l', List.mem_cons_of_mem _ hl', hp'⟩

theorem foldl_scanLoc_origin (locs : List LocState) :
    ∀ st : List EKey × List Entry, ∀ e ∈ (locs.foldl scanLoc st).2,
      e ∈ st.2 ∨ ∃ loc ∈ locs, ∃ l ∈ loc.linesD, parseDataLine l = some e := by
  induction locs with
  | nil => intro st e he; exact Or.inl he
  | cons loc locs ih =>
    intro st e he
    rcases ih (scanLoc st loc) e he with hin | ⟨loc', hl', rest⟩
    · rcases foldl_scanLine_origin _ st e hin with h1 | ⟨l, hl, hp⟩
      · exact Or.inl h1
      · exact Or.inr ⟨loc, List.mem_cons_self _ _, l, hl, hp⟩
    · exact Or.inr ⟨loc', List.mem_cons_of_mem _ hl', rest⟩

theorem allEntries_origin (fs : FS) :
    ∀ e ∈ allEntries fs,
      ∃ loc ∈ knownLocations fs, ∃ l ∈ loc.linesD, parseDataLine l = some e := by
  intro e he
  rcases foldl_scanLoc_origin _ _ e he with hin | hfound
  · simp at hin
  · exact hfound

theorem scanLine_key_present (st : List EKey × List Entry) {l : Line} {e : Entry}
    (hp : parseDataLine l = some e) : entryKey e ∈ (scanLine st l).1 := by
  unfold scanLine
  rw [hp]
  by_cases hm : entryKey e ∈ st.1
  · simpa [hm] using hm
  · simp [hm]

theorem foldl_scanLine_key (ls : List Line) {l : Line} {e : Entry}
    (hl : l ∈ ls) (hp : parseDataLine l = some e) :
    ∀ st : List EKey × List Entry, entryKey e ∈ (ls.foldl scanLine st).1 := by
  intro st
  obtain ⟨s, t, rfl⟩ := List.append_of_mem hl
  rw [List.foldl_append, List.foldl_cons]
  exact foldl_scanLine_keys_mono t _ (scanLine_key_present _ hp)

theorem foldl_scanLoc_key (locs : List LocState) {loc : LocState} {l : Line}
    {e : Entry} (hloc : loc ∈ locs) (hl : l ∈ loc.linesD)
    (hp : parseDataLine l = some e) :
    ∀ st : List EKey × List Entry, entryKey e ∈ (locs.foldl scanLoc st).1 := by
  intro st
  obtain ⟨s, t, rfl⟩ := List.append_of_mem hloc
  rw [List.foldl_append, List.foldl_cons]
  exact foldl_scanLoc_keys_mono t _ (foldl_scanLine_key _ hl hp _)

theorem allEntries_key_present {fs : FS} {loc : LocState} {l : Line} {e : Entry}
    (hloc : loc ∈ knownLocations fs) (hl : l ∈ loc.linesD)
    (hp : parseDataLine l = some e) :
    ∃ e' ∈ allEntries fs, entryKey e' = entryKey e := by
  have hk : entryKey e ∈ (scanAll fs).1 := foldl_scanLoc_key _ hloc hl hp _
  rw [scanAll_inv fs] at hk
  rw [List.mem_reverse] at hk
  obtain ⟨e', he', hke⟩ := List.mem_map.mp hk
  exact ⟨e', he', hke⟩

/-! ## Sorted-view lemmas -/

theorem mergedView_perm (fs : FS) : (mergedView fs).Perm (allEntries fs) :=
  List.perm_insertionSort entryLE (allEntries fs)

theorem mergedView_sorted (fs : FS) : List.Sorted entryLE (mergedView fs) :=
  List.sorted_insertionSort entryLE (allEntries fs)

theorem countP_key_eq_one {l : List Entry} (h : (l.map entryKey).Nodup)
    {e : Entry} (he : e ∈ l) :
    l.countP (fun x => decide (entryKey x = entryKey e)) = 1 := by
  induction l with
  | nil => simp at he
  | cons y t ih =>
    rw [List.map_cons] at h
    have hy : entryKey y ∉ t.map entryKey := (List.nodup_cons.mp h).1
    have ht : (t.map entryKey).Nodup := (List.nodup_cons.mp h).2
    rcases List.mem_cons.mp he with rfl | hmem
    · rw [List.countP_cons]
      have hzero : t.countP (fun x => decide (entryKey x = entryKey e)) = 0 := by
        rw [List.countP_eq_zero]
        intro a ha
        simp only [decide_eq_true_eq]
        intro hkey
        exact hy (hkey ▸ List.mem_map_of_mem entryKey ha)
      simp [hzero]
    · rw [List.countP_cons]
      have hne : ¬(entryKey y = entryKey e) := by
        intro hkey
        exact hy (hkey ▸ List.mem_map_of_mem entryKey hmem)
      simp [hne, ih ht hmem]

/-! ## Statistics-scan / merge-scan relation -/

/-- Projection from a full entry to the record `get_log_stats` keeps. -/
def toStats (e : Entry) : StatsEntry := ⟨e.number, e.date, e.time, e.filename⟩

theorem statKey_toStats (e : Entry) : statKey (toStats e) = entryKey e := rfl

theorem parseStatsLine_eq (l : Line) :
    parseStatsLine l = (parseDataLine l).map toStats := by
  unfold parseStatsLine parseDataLine
  by_cases h1 : (stripCh l).isEmpty || startsHash l
  · simp [h1]
  · simp only [h1, if_false]
    by_cases h2 : 4 ≤ (splitTab (stripCh l)).length
    · simp only [h2, if_true]
      cases parsePyInt ((splitTab (stripCh l)).getD 0 []) with
      | none => rfl
      | some n => rfl
    · simp [h2]

/-- The statistics scan runs in lockstep with the merge scan, dropping the
path field. -/
def StatRel (st : List EKey × List Entry) (st' : List EKey × List StatsEntry) : Prop :=
  st'.1 = st.1 ∧ st'.2 = st.2.map toStats

theorem statScanLine_rel {st : List EKey × List Entry}
    {st' : List EKey × List StatsEntry} (h : StatRel st st') (l : Line) :
    StatRel (scanLine st l) (statScanLine st' l) := by
  obtain ⟨h1, h2⟩ := h
  cases hp : parseDataLine l with
  | none =>
    rw [scanLine_skip hp]
    have hps : parseStatsLine l = none := by rw [parseStatsLine_eq, hp]; rfl
    simp only [statScanLine, hps]
    exact ⟨h1, h2⟩
  | some e =>
    have hps : parseStatsLine l = some (toStats e) := by
      rw [parseStatsLine_eq, hp]; rfl
    simp only [scanLine, statScanLine, hp, hps, statKey_toStats, h1]
    by_cases hm : entryKey e ∈ st.1
    · simp only [if_pos hm]; exact ⟨h1, h2⟩
    · simp only [if_neg hm]
      exact ⟨rfl, by rw [h2]; simp⟩

theorem foldl_statScanLine_rel (ls : List Line) :
    ∀ st st', StatRel st st' →
      StatRel (ls.foldl scanLine st) (ls.foldl statScanLine st') := by
  induction ls with
  | nil => intro st st' h; exact h
  | cons l ls ih => intro st st' h; exact ih _ _ (statScanLine_rel h l)

theorem foldl_statScanLoc_rel (locs : List LocState) :
    ∀ st st', StatRel st st' →
      StatRel (locs.foldl scanLoc st) (locs.foldl statScanLoc st') := by
  induction locs with
  | nil => intro st st' h; exact h
  | cons loc locs ih => intro st st' h; exact ih _ _ (foldl_statScanLine_rel _ _ _ h)

theorem statsAll_eq (fs : FS) : statsAll fs = (allEntries fs).map toStats := by
  have := foldl_statScanLoc_rel (knownLocations fs) ([], []) ([], [])
    ⟨rfl, by simp⟩
  exact this.2

theorem orderedInsert_map (e : Entry) (l : List Entry) :
    List.orderedInsert statLE (toStats e) (l.map toStats) =
      (List.orderedInsert entryLE e l).map toStats := by
  induction l with
  | nil => rfl
  | cons y t ih =>
    simp only [List.map_cons, List.orderedInsert]
    by_cases h : entryLE e y
    · have h' : statLE (toStats e) (toStats y) := h
      rw [if_pos h', if_pos h]
      simp
    · have h' : ¬statLE (toStats e) (toStats y) := h
      rw [if_neg h', if_neg h, List.map_cons, ih]

theorem insertionSort_map (l : List Entry) :
    List.insertionSort statLE (l.map toStats) =
      (List.insertionSort entryLE l).map toStats := by
  induction l with
  | nil => rfl
  | cons y t ih =>
    simp only [List.map_cons, List.insertionSort]
    rw [ih, orderedInsert_map]

theorem statsSorted_eq (fs : FS) :
    List.insertionSort statLE (statsAll fs) = (mergedView fs).map toStats := by
  rw [statsAll_eq, insertionSort_map]
  rfl

/-! ## The formatted entry line re-parses -/

theorem natToChars_forall_digit (n : Nat) :
    ∀ c ∈ natToChars n, isDigitCh c = true :=
  List.all_eq_true.mp (natToChars_all_digits n)

theorem parsePyInt_natToChars (n : Nat) : parsePyInt (natToChars n) = some (n : Int) := by
  have hall := natToChars_forall_digit n
  have hs : stripCh (natToChars n) = natToChars n :=
    stripCh_of_all _ (fun c hc => isDigitCh_not_space (hall c hc))
  obtain ⟨c, cs, hcc⟩ := List.exists_cons_of_ne_nil (natToChars_ne_nil n)
  have hcd : isDigitCh c = true := hall c (by rw [hcc]; exact List.mem_cons_self _ _)
  have hs2 : stripCh (c :: cs) = c :: cs := hcc ▸ hs
  have hpd : parseDigits (c :: cs) = some n := hcc ▸ parseDigits_natToChars n
  simp only [parsePyInt, hcc, hs2]
  rw [if_neg (isDigitCh_ne hcd '-' (by decide)), if_neg (isDigitCh_ne hcd '+' (by decide)),
    hpd]

theorem intToChars_of_nonneg {n : Int} (h : 0 ≤ n) : intToChars n = natToChars n.toNat := by
  cases n with
  | ofNat m => rfl
  | negSucc m => exact absurd h (by simp)

theorem parsePyInt_intToChars {n : Int} (h : 0 ≤ n) :
    parsePyInt (intToChars n) = some n := by
  rw [intToChars_of_nonneg h, parsePyInt_natToChars, Int.toNat_of_nonneg h]

theorem stripCh_ne_nil {l : Line} (h : ∃ c ∈ l, isSpaceCh c = false) :
    stripCh l ≠ [] := by
  have hd : ∃ c ∈ l.dropWhile isSpaceCh, isSpaceCh c = false := by
    induction l with
    | nil => simpa using h
    | cons c rest ih =>
      rw [List.dropWhile_cons]
      by_cases hc : isSpaceCh c = true
      · rw [if_pos hc]
        apply ih
        obtain ⟨x, hx, hxp⟩ := h
        rcases List.mem_cons.mp hx with rfl | hmem
        · rw [hc] at hxp; cases hxp
        · exact ⟨x, hmem, hxp⟩
      · rw [if_neg hc]
        exact ⟨c, List.mem_cons_self _ _, by simpa using hc⟩
  unfold stripCh dropTrailWS
  intro hnil
  rw [List.reverse_eq_nil_iff] at hnil
  exact dropWhile_ne_nil_of_exists _
    (by obtain ⟨c, hc, hcp⟩ := hd; exact ⟨c, List.mem_reverse.mpr hc, hcp⟩) hnil

/-- The formatted entry line, seen by the numbering scan: it contributes
exactly the assigned sequence number. -/
theorem lineNumber_mkEntryLine {n : Int} (hn : 0 ≤ n) (d t nm p : Line) :
    lineNumber (mkEntryLine n d t nm p) = some n := by
  set digits := intToChars n with hdig
  have hdigits : digits = natToChars n.toNat := intToChars_of_nonneg hn
  have hall : ∀ c ∈ digits, isDigitCh c = true := by
    rw [hdigits]; exact natToChars_forall_digit n.toNat
  have hne : digits ≠ [] := by rw [hdigits]; exact natToChars_ne_nil n.toNat
  obtain ⟨c, cs, hcc⟩ := List.exists_cons_of_ne_nil hne
  have hcd : isDigitCh c = true := hall c (by rw [hcc]; exact List.mem_cons_self _ _)
  have hline : mkEntryLine n d t nm p =
      c :: (cs ++ '\t' :: (d ++ '\t' :: (t ++ '\t' :: (nm ++ '\t' :: p)))) := by
    unfold mkEntryLine
    rw [← hdig, hcc]
    simp
  unfold lineNumber
  rw [if_neg ?hcond]
  case hcond =>
    rw [hline]
    simp only [Bool.or_eq_true, not_or]
    constructor
    · have : stripCh (c :: (cs ++ '\t' :: (d ++ '\t' :: (t ++ '\t' :: (nm ++ '\t' :: p))))) ≠ [] :=
        stripCh_ne_nil ⟨c, List.mem_cons_self _ _, isDigitCh_not_space hcd⟩
      simpa [List.isEmpty_iff] using this
    · simp only [startsHash, List.headD, beq_iff_eq]
      exact isDigitCh_ne hcd '#' (by decide)
  have hsplit : splitTab (mkEntryLine n d t nm p) =
      digits :: splitTab (d ++ '\t' :: (t ++ '\t' :: (nm ++ '\t' :: p))) := by
    unfold mkEntryLine
    rw [← hdig]
    exact splitTab_append_noTab digits _
      (fun x hx => isDigitCh_ne (hall x hx) '\t' (by decide))
  rw [hsplit]
  have hlen : 1 ≤ (digits :: splitTab (d ++ '\t' :: (t ++ '\t' :: (nm ++ '\t' :: p)))).length := by
    simp
  rw [if_pos hlen]
  simp only [List.getD_cons_zero]
  rw [hdig]
  exact parsePyInt_intToChars hn

/-- The formatted entry line, seen by the reading scan: provided the date,
time and name fields are tab-free and the path has a non-whitespace
character, it re-parses to the recorded entry (the stored path is the
first tab-field of the trailing-stripped path). -/
theorem parseDataLine_mkEntryLine {n : Int} (hn : 0 ≤ n) (d t nm p : Line)
    (hd : ∀ c ∈ d, c ≠ '\t') (ht : ∀ c ∈ t, c ≠ '\t') (hnm : ∀ c ∈ nm, c ≠ '\t')
    (hp : ∃ c ∈ p, isSpaceCh c = false) :
    parseDataLine (mkEntryLine n d t nm p) =
      some ⟨n, d, t, nm, (splitTab (dropTrailWS p)).headD []⟩ := by
  set digits := intToChars n with hdig
  have hdigits : digits = natToChars n.toNat := intToChars_of_nonneg hn
  have hall : ∀ c ∈ digits, isDigitCh c = true := by
    rw [hdigits]; exact natToChars_forall_digit n.toNat
  have hne : digits ≠ [] := by rw [hdigits]; exact natToChars_ne_nil n.toNat
  obtain ⟨c, cs, hcc⟩ := List.exists_cons_of_ne_nil hne
  have hcd : isDigitCh c = true := hall c (by rw [hcc]; exact List.mem_cons_self _ _)
  -- the stripped line: leading char is a digit, trailing strip stays in `p`
  have hstrip : stripCh (mkEntryLine n d t nm p) =
      digits ++ '\t' :: (d ++ '\t' :: (t ++ '\t' :: (nm ++ '\t' :: dropTrailWS p))) := by
    unfold stripCh
    have hdw : (mkEntryLine n d t nm p).dropWhile isSpaceCh = mkEntryLine n d t nm p := by
      have : mkEntryLine n d t nm p =
          c :: (cs ++ '\t' :: (d ++ '\t' :: (t ++ '\t' :: (nm ++ '\t' :: p)))) := by
        unfold mkEntryLine
        rw [← hdig, hcc]
        simp
      rw [this, List.dropWhile_cons, if_neg (by simp [isDigitCh_not_space hcd])]
    rw [hdw]
    have hassoc : mkEntryLine n d t nm p =
        (digits ++ '\t' :: (d ++ '\t' :: (t ++ '\t' :: (nm ++ ['\t'])))) ++ p := by
      unfold mkEntryLine
      rw [← hdig]
      simp
    rw [hassoc, dropTrailWS_append _ _ hp]
    simp
  have hsplit : splitTab (stripCh (mkEntryLine n d t nm p)) =
      digits :: d :: t :: nm :: splitTab (dropTrailWS p) := by
    rw [hstrip]
    rw [splitTab_append_noTab digits _
      (fun x hx => isDigitCh_ne (hall x hx) '\t' (by decide))]
    rw [splitTab_append_noTab d _ hd, splitTab_append_noTab t _ ht,
      splitTab_append_noTab nm _ hnm]
  obtain ⟨f, fs, hff⟩ := List.exists_cons_of_ne_nil (splitTab_ne_nil (dropTrailWS p))
  unfold parseDataLine
  rw [if_neg ?hcond]
  case hcond =>
    simp only [Bool.or_eq_true, not_or]
    constructor
    · have : stripCh (mkEntryLine n d t nm p) ≠ [] := by
        rw [hstrip]
        rw [hdigits]
        intro hctr
        exact natToChars_ne_nil n.toNat (List.append_eq_nil.mp hctr).1
      simpa [List.isEmpty_iff] using this
    · have : mkEntryLine n d t nm p =
          c :: (cs ++ '\t' :: (d ++ '\t' :: (t ++ '\t' :: (nm ++ '\t' :: p)))) := by
        unfold mkEntryLine
        rw [← hdig, hcc]
        simp
      rw [this]
      simp only [startsHash, List.headD, beq_iff_eq]
      exact isDigitCh_ne hcd '#' (by decide)
  rw [hsplit, hff]
  rw [if_pos (by simp)]
  rw [show ((digits :: d :: t :: nm :: f :: fs).getD 0 []) = digits from rfl]
  rw [hdig, parsePyInt_intToChars hn]
  simp [List.getD]

/-! ## `record` equations -/

theorem record_spec {fs fs' : FS} {n : Int} {d t nm p : Line}
    (h : record fs d t nm p = some (fs', n)) :
    n = get_next_call_number fs ∧ fs'.root = fs.root ∧ fs'.sub = fs.sub ∧
    ∃ content, fs'.logs = .readable (insertTop content (mkEntryLine n d t nm p)) ∧
      (fs.logs = .readable content ∨ (fs.logs = .missing ∧ content = headerLines)) := by
  cases hl : fs.logs with
  | unreadable => simp [record, hl] at h
  | missing =>
    simp only [record, hl] at h
    obtain ⟨hfs, hn⟩ := Prod.mk.injEq .. ▸ (Option.some.injEq .. ▸ h)
    subst hn
    refine ⟨rfl, ?_, ?_, headerLines, ?_, Or.inr ⟨rfl, rfl⟩⟩ <;> rw [← hfs]
  | readable content =>
    simp only [record, hl] at h
    obtain ⟨hfs, hn⟩ := Prod.mk.injEq .. ▸ (Option.some.injEq .. ▸ h)
    subst hn
    refine ⟨rfl, ?_, ?_, content, ?_, Or.inl rfl⟩ <;> rw [← hfs]

theorem lineNumber_hash {l : Line} (h : startsHash l = true) : lineNumber l = none := by
  simp [lineNumber, h]

theorem parseDataLine_hash {l : Line} (h : startsHash l = true) :
    parseDataLine l = none := by
  simp [parseDataLine, h]

theorem filterMap_lineNumber_nonhash (content : List Line) :
    (content.filter (fun l => !startsHash l)).filterMap lineNumber =
      content.filterMap lineNumber := by
  induction content with
  | nil => rfl
  | cons l ls ih =>
    by_cases h : startsHash l = true
    · rw [List.filter_cons, if_neg (by simp [h]), List.filterMap_cons,
        lineNumber_hash h, ih]
    · rw [List.filter_cons, if_pos (by simp at h; simp [h]), List.filterMap_cons,
        List.filterMap_cons, ih]

theorem filterMap_lineNumber_hash (content : List Line) :
    (content.filter startsHash).filterMap lineNumber = [] := by
  induction content with
  | nil => rfl
  | cons l ls ih =>
    by_cases h : startsHash l = true
    · rw [List.filter_cons, if_pos h, List.filterMap_cons, lineNumber_hash h, ih]
    · rw [List.filter_cons, if_neg (by simp [h]), ih]

/-- The numbering scan over a rewritten primary file sees the new number,
then exactly the numbers of the old content. -/
theorem locNumbers_insertTop (content : List Line) (entry : Line) {n : Int}
    (he : lineNumber entry = some n) :
    locNumbers (.readable (insertTop content entry)) =
      n :: locNumbers (.readable content) := by
  unfold locNumbers insertTop LocState.linesD
  rw [List.filterMap_append, filterMap_lineNumber_hash, List.filterMap_cons, he,
    filterMap_lineNumber_nonhash]
  rfl

/-! ## Supporting lemmas for the claims -/

theorem parsedNumbers_fs (fs : FS) :
    parsedNumbers fs =
      locNumbers fs.root ++ (locNumbers fs.sub ++ (locNumbers fs.logs ++ [])) := rfl

theorem parsedNumbers_after_record {fs fs' : FS} {n : Int} {d t nm p : Line}
    (h : record fs d t nm p = some (fs', n)) :
    parsedNumbers fs' =
      locNumbers fs.root ++ (locNumbers fs.sub ++ (n :: locNumbers fs.logs)) := by
  obtain ⟨hn, hroot, hsub, content, hlogs, hcase⟩ := record_spec h
  have hnn : 0 ≤ n := by have := get_next_pos fs; omega
  have hln : lineNumber (mkEntryLine n d t nm p) = some n := lineNumber_mkEntryLine hnn d t nm p
  have hlogNums : locNumbers fs'.logs = n :: locNumbers fs.logs := by
    rw [hlogs, locNumbers_insertTop content _ hln]
    rcases hcase with hread | ⟨hmiss, hhdr⟩
    · rw [hread]
    · rw [hmiss, hhdr]
      have : locNumbers (LocState.readable headerLines) = [] := by decide
      rw [this]
      rfl
  rw [parsedNumbers_fs fs', hroot, hsub, hlogNums]
  simp

theorem mem_parsedNumbers {fs : FS} {loc : LocState} {x : Int}
    (hloc : loc ∈ knownLocations fs) (hx : x ∈ locNumbers loc) :
    x ∈ parsedNumbers fs := by
  rw [parsedNumbers_fs]
  simp only [knownLocations, List.mem_cons, List.not_mem_nil, or_false] at hloc
  rcases hloc with rfl | rfl | rfl <;> simp [hx]

theorem parsedNumbers_lt_next {fs : FS} {x : Int} (hx : x ∈ parsedNumbers fs) :
    x < get_next_call_number fs := by
  rw [get_next_eq]
  have := foldl_max_mem 0 (parsedNumbers fs) x hx
  omega

theorem entryKey_fields {e1 e2 : Entry} (h : entryKey e1 = entryKey e2) :
    e1.number = e2.number ∧ e1.filename = e2.filename := by
  simp only [entryKey, Prod.mk.injEq] at h
  exact ⟨h.1, h.2.2.2⟩

theorem FS.get_mem_known (fs : FS) (s : Slot) : fs.get s ∈ knownLocations fs := by
  cases s <;> simp [FS.get, knownLocations]

theorem headD_map_toStats {l : List Entry} (hl : l ≠ []) (x : StatsEntry) (y : Entry) :
    (l.map toStats).headD x = toStats (l.headD y) := by
  cases l with
  | nil => exact absurd rfl hl
  | cons a t => rfl

theorem getLastD_map_toStats (t : List Entry) :
    ∀ (x : StatsEntry) (y : Entry), t ≠ [] →
      (t.map toStats).getLastD x = toStats (t.getLastD y) := by
  induction t with
  | nil => intro x y h; exact absurd rfl h
  | cons a t ih =>
    intro x y h
    rw [List.map_cons, List.getLastD_cons, List.getLastD_cons]
    by_cases ht : t = []
    · subst ht; rfl
    · exact ih (toStats a) a ht

theorem lineNumber_none_of_parse {l : Line}
    (h : parsePyInt ((splitTab l).getD 0 []) = none) : lineNumber l = none := by
  unfold lineNumber
  by_cases hc : ((stripCh l).isEmpty || startsHash l) = true
  · rw [if_pos hc]
  · rw [if_neg hc]
    by_cases hlen : 1 ≤ (splitTab l).length
    · rw [if_pos hlen]; exact h
    · rw [if_neg hlen]

theorem locMaxFold_skip {l : Line} (h : lineNumber l = none)
    (c1 c2 : List Line) (m : Int) :
    locMaxFold m (.readable (c1 ++ l :: c2)) = locMaxFold m (.readable (c1 ++ c2)) := by
  unfold locMaxFold LocState.linesD
  rw [List.foldl_append, List.foldl_append, List.foldl_cons, h]

theorem scanLoc_skip {l : Line} (h : parseDataLine l = none)
    (c1 c2 : List Line) (st : List EKey × List Entry) :
    scanLoc st (.readable (c1 ++ l :: c2)) = scanLoc st (.readable (c1 ++ c2)) := by
  unfold scanLoc LocState.linesD
  rw [List.foldl_append, List.foldl_append, List.foldl_cons, scanLine_skip h]

/-- Extract the successor state of a successful `record` (used to state
closed witnesses). -/
def recFS (fs : FS) (d t nm p : Line) : FS :=
  match record fs d t nm p with
  | some pr => pr.1
  | none => fs

def dfltEntry : Entry := ⟨0, [], [], [], []⟩

def dfltStats : Stats := ⟨0, [], [], [], [], []⟩

/-- Extract the statistics report (used to state closed witnesses). -/
def statsOf (fs : FS) : Stats := (get_log_stats fs).getD dfltStats

/-- A line is numbering-visible when the sequence number the reading scan
parses from it is also what the numbering scan parses from it. -/
def visibleLine (l : Line) : Bool :=
  match parseDataLine l with
  | some e => lineNumber l == some e.number
  | none => true

/-- Every line of every known location is numbering-visible (rules out
entries hidden from `get_next_call_number`, e.g. behind a leading tab). -/
def ScanVisible (fs : FS) : Prop :=
  ∀ loc ∈ knownLocations fs, ∀ l ∈ loc.linesD, visibleLine l = true

instance (fs : FS) : Decidable (ScanVisible fs) :=
  inferInstanceAs (Decidable (∀ loc ∈ knownLocations fs, ∀ l ∈ loc.linesD, visibleLine l = true))

theorem visibleLine_number {l : Line} {e : Entry} (hv : visibleLine l = true)
    (hp : parseDataLine l = some e) : lineNumber l = some e.number := by
  unfold visibleLine at hv
  rw [hp] at hv
  exact beq_iff_eq.mp hv

/-! ## Claim theorems -/

/-- C1: for sequential `record` calls the assigned sequence numbers increase
by exactly 1; `get_next_call_number` returns 1 plus the maximum sequence
value the scan finds across all known locations (primary and legacy alike,
`parsedNumbers` spans all of them), and returns 1 when no location yields a
valid entry. -/
theorem next_sequence_increment (fs fs1 fs2 : FS) (n1 n2 : Int)
    (d1 t1 nm1 p1 d2 t2 nm2 p2 : Line)
    (h1 : record fs d1 t1 nm1 p1 = some (fs1, n1))
    (h2 : record fs1 d2 t2 nm2 p2 = some (fs2, n2)) :
    n2 = n1 + 1 ∧
    (parsedNumbers fs = [] → n1 = 1) ∧
    (∀ m ∈ parsedNumbers fs, (∀ x ∈ parsedNumbers fs, x ≤ m) → 0 ≤ m → n1 = 1 + m) := by
  have hn1 : n1 = get_next_call_number fs := (record_spec h1).1
  have hn2 : n2 = get_next_call_number fs1 := (record_spec h2).1
  refine ⟨?_, ?_, ?_⟩
  · rw [hn2, get_next_eq, parsedNumbers_after_record h1]
    have hmem : n1 ∈ locNumbers fs.root ++ (locNumbers fs.sub ++ (n1 :: locNumbers fs.logs)) := by
      simp
    have hbound : ∀ x ∈ locNumbers fs.root ++ (locNumbers fs.sub ++ (n1 :: locNumbers fs.logs)),
        x ≤ n1 := by
      intro x hx
      have hkr : fs.root ∈ knownLocations fs := by simp [knownLocations]
      have hks : fs.sub ∈ knownLocations fs := by simp [knownLocations]
      have hkl : fs.logs ∈ knownLocations fs := by simp [knownLocations]
      simp only [List.mem_append, List.mem_cons] at hx
      rcases hx with hx | hx | rfl | hx
      · have := parsedNumbers_lt_next (mem_parsedNumbers hkr hx)
        omega
      · have := parsedNumbers_lt_next (mem_parsedNumbers hks hx)
        omega
      · exact le_rfl
      · have := parsedNumbers_lt_next (mem_parsedNumbers hkl hx)
        omega
    have h0 : 0 ≤ n1 := by
      have := get_next_pos fs
      omega
    rw [foldl_max_eq_of_mem n1 _ hmem hbound h0]
  · intro hempty
    rw [hn1, get_next_eq, hempty]
    rfl
  · intro m hm hb h0
    rw [hn1, get_next_eq, foldl_max_eq_of_mem m _ hm hb h0]
    omega

def fsW : FS :=
  ⟨.readable ["5\t2025-01-01\t09:00:00\tinit.x\t/home/init.x".toList], .missing, .missing⟩

def fsW1 : FS := recFS fsW "2025-01-02".toList "10:00:00".toList "a.x".toList "/a.x".toList

def fsW2 : FS := recFS fsW1 "2025-01-02".toList "10:05:00".toList "b.x".toList "/b.x".toList

/-- Witness for C1: with a legacy entry numbered 5 and no primary file, the
next two recordings get numbers 6 and 7; 6 is 1 plus the legacy maximum 5. -/
theorem next_sequence_increment_check :
    record fsW "2025-01-02".toList "10:00:00".toList "a.x".toList "/a.x".toList =
      some (fsW1, 6) ∧
    record fsW1 "2025-01-02".toList "10:05:00".toList "b.x".toList "/b.x".toList =
      some (fsW2, 7) ∧
    (7 : Int) = 6 + 1 ∧ (6 : Int) = 1 + 5 := by
  have h1 : record fsW "2025-01-02".toList "10:00:00".toList "a.x".toList "/a.x".toList =
      some (fsW1, 6) := by decide
  have h2 : record fsW1 "2025-01-02".toList "10:05:00".toList "b.x".toList "/b.x".toList =
      some (fsW2, 7) := by decide
  have main := next_sequence_increment fsW fsW1 fsW2 6 7 _ _ _ _ _ _ _ _ h1 h2
  exact ⟨h1, h2, main.1, main.2.2 5 (by decide) (by decide) (by decide)⟩

/-- C2: `get_log_stats` is computed on the merged deduplicated view: its
count is the number of surviving entries of `mergedView`, the reported
newest and oldest timestamps are those of the first and last elements of
the descending-sorted merged result, and the empty merged result gives the
explicit no-data answer `none`. -/
theorem stats_from_merged_view (fs : FS) :
    (get_log_stats fs = none ↔ mergedView fs = []) ∧
    (∀ st, get_log_stats fs = some st →
      st.count = (mergedView fs).length ∧
      st.newestDate = ((mergedView fs).headD dfltEntry).date ∧
      st.newestTime = ((mergedView fs).headD dfltEntry).time ∧
      st.oldestDate = ((mergedView fs).getLastD dfltEntry).date ∧
      st.oldestTime = ((mergedView fs).getLastD dfltEntry).time) := by
  unfold get_log_stats
  rw [statsSorted_eq fs]
  by_cases hM : mergedView fs = []
  · rw [hM]
    simp
  · have hne : ((mergedView fs).map toStats).isEmpty = false := by
      simp [List.isEmpty_iff, hM]
    rw [if_neg (by simp [hne])]
    constructor
    · simp [hM]
    · intro st hst
      injection hst with hst
      subst hst
      refine ⟨by simp, ?_, ?_, ?_, ?_⟩
      · rw [headD_map_toStats hM dfltStat dfltEntry]; rfl
      · rw [headD_map_toStats hM dfltStat dfltEntry]; rfl
      · rw [getLastD_map_toStats _ dfltStat dfltEntry hM]; rfl
      · rw [getLastD_map_toStats _ dfltStat dfltEntry hM]; rfl

def fsStat : FS :=
  ⟨.readable ["1\t2025-01-01\t09:00:00\tb.x\t/b.x".toList,
              "2\t2025-01-02\t10:00:00\ta.x\t/a.x".toList], .missing, .missing⟩

/-- Witness for C2: on a two-entry store the statistics agree with the
merged view. -/
theorem stats_from_merged_view_check :
    get_log_stats fsStat = some (statsOf fsStat) ∧
    (statsOf fsStat).count = (mergedView fsStat).length ∧
    (statsOf fsStat).newestDate = ((mergedView fsStat).headD dfltEntry).date ∧
    (statsOf fsStat).oldestTime = ((mergedView fsStat).getLastD dfltEntry).time := by
  have h : get_log_stats fsStat = some (statsOf fsStat) := by decide
  have main := (stats_from_merged_view fsStat).2 (statsOf fsStat) h
  exact ⟨h, main.1, main.2.1, main.2.2.2.2⟩

/-- C4: two physical copies of a line with the same (sequence, date, time,
name) identity, one in each of two locations, survive merging as exactly
one logical entry: the merged view contains exactly one entry with that
key. -/
theorem dedup_single_entry (fs : FS) (sa sb : Slot) (la lb : List Line)
    (l1 l2 : Line) (e1 e2 : Entry)
    (ha : fs.get sa = .readable la) (hb : fs.get sb = .readable lb)
    (h1 : l1 ∈ la) (h2 : l2 ∈ lb)
    (hp1 : parseDataLine l1 = some e1) (hp2 : parseDataLine l2 = some e2)
    (hk : entryKey e1 = entryKey e2) :
    (mergedView fs).countP (fun x => decide (entryKey x = entryKey e1)) = 1 := by
  have hloc : fs.get sa ∈ knownLocations fs := FS.get_mem_known fs sa
  have hl1 : l1 ∈ (fs.get sa).linesD := by rw [ha]; exact h1
  obtain ⟨e', he', hke⟩ := allEntries_key_present hloc hl1 hp1
  have hpred : (fun x => decide (entryKey x = entryKey e1)) =
      (fun x => decide (entryKey x = entryKey e')) := by
    funext x
    rw [hke]
  rw [hpred, (mergedView_perm fs).countP_eq]
  exact countP_key_eq_one (allEntries_keys_nodup fs) he'

def dupLine : Line := "3\t2025-01-01\t08:00:00\tdup.x\t/dup.x".toList

def fsDup : FS := ⟨.readable [dupLine], .readable [dupLine], .missing⟩

def eDup : Entry :=
  ⟨3, "2025-01-01".toList, "08:00:00".toList, "dup.x".toList, "/dup.x".toList⟩

/-- Witness for C4: the same line in the root and sub locations yields one
merged entry. -/
theorem dedup_single_entry_check :
    (mergedView fsDup).countP (fun x => decide (entryKey x = entryKey eDup)) = 1 ∧
    (mergedView fsDup).length = 1 := by
  have hp : parseDataLine dupLine = some eDup := by decide
  have main := dedup_single_entry fsDup .root .sub [dupLine] [dupLine] dupLine dupLine
    eDup eDup rfl rfl (by simp) (by simp) hp hp rfl
  exact ⟨main, by decide⟩

/-- C6: a successful `record` rewrites the primary file as the previous
comment-prefixed header lines (in order), then the new entry line, then
the previous data lines (in order) — a prepend, not an append; when the
primary file was missing it is first created with the fixed three-line
comment header. -/
theorem record_inserts_at_top (fs fs' : FS) (n : Int) (d t nm p : Line)
    (h : record fs d t nm p = some (fs', n)) :
    (∀ content, fs.logs = .readable content →
      fs'.logs = .readable (content.filter startsHash ++
        mkEntryLine n d t nm p :: content.filter (fun l => !startsHash l))) ∧
    (fs.logs = .missing →
      fs'.logs = .readable (headerLines ++ [mkEntryLine n d t nm p])) ∧
    headerLines.length = 3 ∧ (∀ l ∈ headerLines, startsHash l = true) := by
  obtain ⟨hn, hroot, hsub, content, hlogs, hcase⟩ := record_spec h
  refine ⟨?_, ?_, by decide, by decide⟩
  · intro c hc
    rcases hcase with hread | ⟨hmiss, _⟩
    · rw [hread] at hc
      injection hc with hc
      subst hc
      rw [hlogs]
      rfl
    · rw [hmiss] at hc
      exact LocState.noConfusion hc
  · intro hmiss
    rcases hcase with hread | ⟨_, hhdr⟩
    · rw [hmiss] at hread
      exact LocState.noConfusion hread
    · subst hhdr
      rw [hlogs]
      unfold insertTop
      rw [show headerLines.filter startsHash = headerLines from by decide,
        show headerLines.filter (fun l => !startsHash l) = [] from by decide]

def fsMix : FS :=
  ⟨.missing, .missing,
   .readable ["# hdr".toList,
              "3\t2025-01-01\t08:00:00\tc.x\t/c.x".toList,
              "# note".toList,
              "1\t2024-12-31\t07:00:00\td.x\t/d.x".toList]⟩

def fsMix1 : FS := recFS fsMix "2025-01-03".toList "12:00:00".toList "e.x".toList "/e.x".toList

/-- Witness for C6: recording over a primary file with interleaved comment
and data lines hoists the comments, then the new entry, then the old data
lines in order. -/
theorem record_inserts_at_top_check :
    record fsMix "2025-01-03".toList "12:00:00".toList "e.x".toList "/e.x".toList =
      some (fsMix1, 4) ∧
    fsMix1.logs = .readable
      ["# hdr".toList, "# note".toList,
       "4\t2025-01-03\t12:00:00\te.x\t/e.x".toList,
       "3\t2025-01-01\t08:00:00\tc.x\t/c.x".toList,
       "1\t2024-12-31\t07:00:00\td.x\t/d.x".toList] := by
  have h : record fsMix "2025-01-03".toList "12:00:00".toList "e.x".toList "/e.x".toList =
      some (fsMix1, 4) := by decide
  have main := (record_inserts_at_top fsMix fsMix1 4 _ _ _ _ h).1 _ rfl
  rw [main]
  exact ⟨h, by decide⟩

/-- C7: malformed lines are skipped individually and never abort a scan:
removing a line whose first field does not parse as an integer leaves
`get_next_call_number` unchanged, and removing a line that yields no entry
(non-numeric first field or fewer than 4 fields) leaves `mergedView`
unchanged; both operations are total functions. -/
theorem malformed_lines_skipped (fs : FS) (s : Slot) (c1 c2 : List Line) (l : Line)
    (h : fs.get s = .readable (c1 ++ l :: c2)) :
    (parsePyInt ((splitTab l).getD 0 []) = none →
      get_next_call_number fs = get_next_call_number (fs.set s (.readable (c1 ++ c2)))) ∧
    (parseDataLine l = none →
      mergedView fs = mergedView (fs.set s (.readable (c1 ++ c2)))) := by
  constructor
  · intro hp
    have hln : lineNumber l = none := lineNumber_none_of_parse hp
    cases s <;>
      (simp only [FS.get] at h
       simp only [get_next_call_number, knownLocations, FS.set, List.foldl_cons,
         List.foldl_nil]
       rw [h, locMaxFold_skip hln])
  · intro hp
    have hall : allEntries fs = allEntries (fs.set s (.readable (c1 ++ c2))) := by
      cases s <;>
        (simp only [FS.get] at h
         simp only [allEntries, scanAll, knownLocations, FS.set, List.foldl_cons,
           List.foldl_nil]
         rw [h, scanLoc_skip hp])
    unfold mergedView
    rw [hall]

def fsMal : FS :=
  ⟨.readable ["2\t2025-01-01\t10:00:00\ta.x\t/a.x".toList,
              "abc\tbad\tdata".toList,
              "1\t2025-01-01\t09:00:00\tb.x\t/b.x".toList], .missing, .missing⟩

def fsMalClean : FS :=
  ⟨.readable ["2\t2025-01-01\t10:00:00\ta.x\t/a.x".toList,
              "1\t2025-01-01\t09:00:00\tb.x\t/b.x".toList], .missing, .missing⟩

/-- Witness for C7: a file containing "abc&#9;bad&#9;data" between two valid
lines numbers and merges exactly as the file without it, and the merged
view holds exactly the two valid entries. -/
theorem malformed_lines_skipped_check :
    get_next_call_number fsMal = get_next_call_number fsMalClean ∧
    mergedView fsMal = mergedView fsMalClean ∧
    mergedView fsMal =
      [⟨2, "2025-01-01".toList, "10:00:00".toList, "a.x".toList, "/a.x".toList⟩,
       ⟨1, "2025-01-01".toList, "09:00:00".toList, "b.x".toList, "/b.x".toList⟩] := by
  have main := malformed_lines_skipped fsMal Slot.root
    ["2\t2025-01-01\t10:00:00\ta.x\t/a.x".toList]
    ["1\t2025-01-01\t09:00:00\tb.x\t/b.x".toList]
    ("abc\tbad\tdata".toList) rfl
  exact ⟨main.1 (by decide), main.2 (by decide), by decide⟩

/-- C9: `read_log` is read-only and deterministic in the file state: it
leaves the state unchanged, a second call returns the same view, and the
view depends only on the contents of the known locations. -/
theorem merged_view_idempotent (fs fs' : FS)
    (h : knownLocations fs = knownLocations fs') :
    (readLog fs).2 = fs ∧
    (readLog ((readLog fs).2)).1 = (readLog fs).1 ∧
    mergedView fs = mergedView fs' := by
  refine ⟨rfl, rfl, ?_⟩
  unfold mergedView allEntries scanAll
  rw [h]

/-- Witness for C9 at a concrete store. -/
theorem merged_view_idempotent_check :
    (readLog fsStat).2 = fsStat ∧
    (readLog ((readLog fsStat).2)).1 = (readLog fsStat).1 ∧
    mergedView fsStat = mergedView fsStat :=
  merged_view_idempotent fsStat fsStat rfl

/-- C10: `get_next_call_number` always returns at least 1 (the running
maximum starts at 0), it returns exactly 1 when every parsed value is zero
or negative, and hence every assigned sequence number is at least 1. -/
theorem next_sequence_ge_one (fs : FS) :
    1 ≤ get_next_call_number fs ∧
    ((∀ x ∈ parsedNumbers fs, x ≤ 0) → get_next_call_number fs = 1) ∧
    (∀ fs' n d t nm p, record fs d t nm p = some (fs', n) → 1 ≤ n) := by
  refine ⟨get_next_pos fs, ?_, ?_⟩
  · intro h
    rw [get_next_eq]
    have hle := foldl_max_le 0 0 (parsedNumbers fs) le_rfl h
    have hge := foldl_max_init 0 (parsedNumbers fs)
    omega
  · intro fs' n d t nm p h
    rw [(record_spec h).1]
    exact get_next_pos fs

def fsNeg : FS :=
  ⟨.readable ["-7\t2025-01-01\t09:00:00\ta.x\t/a.x".toList], .missing, .missing⟩

def fsNeg1 : FS := recFS fsNeg "2025-01-02".toList "10:00:00".toList "b.x".toList "/b.x".toList

/-- Witness for C10: with only a negative number on file, the next number
is 1, not 1 plus the negative maximum. -/
theorem next_sequence_ge_one_check :
    1 ≤ get_next_call_number fsNeg ∧
    get_next_call_number fsNeg = 1 ∧
    record fsNeg "2025-01-02".toList "10:00:00".toList "b.x".toList "/b.x".toList =
      some (fsNeg1, 1) ∧
    (1 : Int) ≤ 1 := by
  have h : record fsNeg "2025-01-02".toList "10:00:00".toList "b.x".toList "/b.x".toList =
      some (fsNeg1, 1) := by decide
  have main := next_sequence_ge_one fsNeg
  exact ⟨main.1, main.2.1 (by decide), h, main.2.2 fsNeg1 1 _ _ _ _ h⟩

def ghostLine : Line := "\t9\t2025-01-01\t10:00:00\ta.x".toList

def fsG : FS := ⟨.readable [ghostLine], .missing, .missing⟩

def fsG1 : FS := recFS fsG "2025-01-02".toList "11:00:00".toList "b.x".toList "/b.x".toList

/-- Counterexample to C3 as stated: a legacy line whose leading whitespace
contains a tab parses in the reading scan (sequence 9) but is invisible to
the numbering scan, so the next `record` is assigned 1 and the merged
view's first element is the ghost entry, not the new one. -/
theorem merged_head_after_record_cex :
    record fsG "2025-01-02".toList "11:00:00".toList "b.x".toList "/b.x".toList =
      some (fsG1, 1) ∧
    ((mergedView fsG1).headD dfltEntry).number = 9 ∧
    ¬(((mergedView fsG1).headD dfltEntry).number = 1 ∧
      ((mergedView fsG1).headD dfltEntry).filename = "b.x".toList) := by
  decide

/-- C3 (amended): provided every line of every known location that parses
as a merged-view entry also exposes its sequence number to the numbering
scan, and the recorded date, time and name are tab-free with a path
containing a non-whitespace character, the first element of `mergedView`
immediately after a successful `record` carries the assigned sequence
number and the recorded source name. -/
theorem merged_head_after_record (fs fs' : FS) (n : Int) (d t nm p : Line)
    (hv : ScanVisible fs)
    (hd : ∀ c ∈ d, c ≠ '\t') (ht : ∀ c ∈ t, c ≠ '\t') (hnm : ∀ c ∈ nm, c ≠ '\t')
    (hp : ∃ c ∈ p, isSpaceCh c = false)
    (h : record fs d t nm p = some (fs', n)) :
    ((mergedView fs').headD dfltEntry).number = n ∧
    ((mergedView fs').headD dfltEntry).filename = nm := by
  obtain ⟨hn, hroot, hsub, content, hlogs, hcase⟩ := record_spec h
  have hnn : 0 ≤ n := by
    have := get_next_pos fs
    omega
  have hpE : parseDataLine (mkEntryLine n d t nm p) =
      some ⟨n, d, t, nm, (splitTab (dropTrailWS p)).headD []⟩ :=
    parseDataLine_mkEntryLine hnn d t nm p hd ht hnm hp
  set Ee : Entry := ⟨n, d, t, nm, (splitTab (dropTrailWS p)).headD []⟩ with hEe
  have hbound : ∀ e2 ∈ allEntries fs', entryKey e2 = entryKey Ee ∨ e2.number < n := by
    intro e2 he2
    obtain ⟨loc, hloc, l, hl, hpl⟩ := allEntries_origin fs' e2 he2
    simp only [knownLocations, List.mem_cons, List.not_mem_nil, or_false] at hloc
    rcases hloc with rfl | rfl | rfl
    · right
      rw [hroot] at hl
      have hloc' : fs.root ∈ knownLocations fs := by simp [knownLocations]
      have hln := visibleLine_number (hv fs.root hloc' l hl) hpl
      have := parsedNumbers_lt_next
        (mem_parsedNumbers hloc' (List.mem_filterMap.mpr ⟨l, hl, hln⟩))
      omega
    · right
      rw [hsub] at hl
      have hloc' : fs.sub ∈ knownLocations fs := by simp [knownLocations]
      have hln := visibleLine_number (hv fs.sub hloc' l hl) hpl
      have := parsedNumbers_lt_next
        (mem_parsedNumbers hloc' (List.mem_filterMap.mpr ⟨l, hl, hln⟩))
      omega
    · rw [hlogs] at hl
      simp only [LocState.linesD] at hl
      unfold insertTop at hl
      rcases List.mem_append.mp hl with hhash | hrest
      · rw [parseDataLine_hash (List.mem_filter.mp hhash).2] at hpl
        cases hpl
      · rcases List.mem_cons.mp hrest with rfl | hdata
        · left
          rw [hpE] at hpl
          injection hpl with hpl
          rw [← hpl]
        · right
          have hlc : l ∈ content := List.mem_of_mem_filter hdata
          rcases hcase with hread | ⟨hmiss, hhdr⟩
          · have hloc' : fs.logs ∈ knownLocations fs := by simp [knownLocations]
            have hl2 : l ∈ (fs.logs).linesD := by rw [hread]; exact hlc
            have hln := visibleLine_number (hv fs.logs hloc' l hl2) hpl
            have := parsedNumbers_lt_next
              (mem_parsedNumbers hloc' (List.mem_filterMap.mpr ⟨l, hl2, hln⟩))
            omega
          · subst hhdr
            have hhl : startsHash l = true := by
              have hall : ∀ x ∈ headerLines, startsHash x = true := by decide
              exact hall l hlc
            rw [parseDataLine_hash hhl] at hpl
            cases hpl
  have hEmem : mkEntryLine n d t nm p ∈ (fs'.logs).linesD := by
    rw [hlogs]
    simp only [LocState.linesD]
    unfold insertTop
    exact List.mem_append.mpr (Or.inr (List.mem_cons_self _ _))
  have hlogsKnown : fs'.logs ∈ knownLocations fs' := by simp [knownLocations]
  obtain ⟨e', he', hke⟩ := allEntries_key_present hlogsKnown hEmem hpE
  have hE'n : e'.number = n := (entryKey_fields hke).1
  have he'm : e' ∈ mergedView fs' := (mergedView_perm fs').mem_iff.mpr he'
  cases hM : mergedView fs' with
  | nil =>
    rw [hM] at he'm
    cases he'm
  | cons h0 rest =>
    have hsorted := mergedView_sorted fs'
    rw [hM] at hsorted
    have hh0mem : h0 ∈ allEntries fs' :=
      (mergedView_perm fs').subset (hM ▸ List.mem_cons_self h0 rest)
    have hh0ge : n ≤ h0.number := by
      rw [hM] at he'm
      rcases List.mem_cons.mp he'm with rfl | hin
      · rw [hE'n]
      · have h2 : e'.number ≤ h0.number := List.rel_of_sorted_cons hsorted e' hin
        omega
    rcases hbound h0 hh0mem with hkey | hlt
    · have hf := entryKey_fields hkey
      rw [List.headD_cons]
      exact ⟨hf.1, hf.2⟩
    · omega

/-- Witness for C3 (amended): recording on a clean store with legacy
maximum 5 puts the new entry (6, "a.x") at the head of the merged view. -/
theorem merged_head_after_record_check :
    record fsW "2025-01-02".toList "10:00:00".toList "a.x".toList "/a.x".toList =
      some (fsW1, 6) ∧
    ((mergedView fsW1).headD dfltEntry).number = 6 ∧
    ((mergedView fsW1).headD dfltEntry).filename = "a.x".toList := by
  have h : record fsW "2025-01-02".toList "10:00:00".toList "a.x".toList "/a.x".toList =
      some (fsW1, 6) := by decide
  have main := merged_head_after_record fsW fsW1 6 _ _ _ _ (by decide) (by decide)
    (by decide) (by decide) (by decide) h
  exact ⟨h, main.1, main.2⟩

def fsTie : FS :=
  ⟨.readable ["1\t2025-01-01\t10:00:00\tb.x\t/b.x".toList,
              "2\t2025-01-01\t10:00:01\ta.x\t/a.x".toList], .missing, .missing⟩

/-- Counterexample to C5 as stated: on a count tie the code orders sources
by first encounter in the descending-sorted entry list (a.x before b.x),
not by first encounter in the merge scan (b.x before a.x). -/
theorem top_sources_tie_cex :
    get_log_stats fsTie = some (statsOf fsTie) ∧
    (statsOf fsTie).topSources = [("a.x".toList, 1), ("b.x".toList, 1)] ∧
    specTopSources fsTie = [("b.x".toList, 1), ("a.x".toList, 1)] ∧
    ¬((statsOf fsTie).topSources = specTopSources fsTie) := by
  decide

/-- C5 (amended): `topSources` groups the surviving entries by source name
with the table built in first-encountered order of the descending-sorted
merged sequence, stable-sorts it by count descending, and keeps at most
the top five; ties therefore keep the sorted-sequence encounter order. -/
theorem top_sources_spec (fs : FS) (st : Stats) (h : get_log_stats fs = some st) :
    st.topSources =
      (List.insertionSort countLE (sourceCounts ((mergedView fs).map toStats))).take 5 ∧
    st.topSources.length ≤ 5 ∧
    List.Sorted countLE st.topSources := by
  unfold get_log_stats at h
  rw [statsSorted_eq fs] at h
  by_cases hM : ((mergedView fs).map toStats).isEmpty = true
  · rw [if_pos hM] at h
    cases h
  · rw [if_neg hM] at h
    injection h with h
    subst h
    refine ⟨rfl, ?_, ?_⟩
    · exact List.length_take_le 5 _
    · exact List.Pairwise.sublist (List.take_sublist 5 _)
        (List.sorted_insertionSort countLE _)

def fsAB : FS :=
  ⟨.readable ["1\t2025-01-01\t10:00:00\ta.x\t/a.x".toList,
              "2\t2025-01-01\t10:10:00\tb.x\t/b.x".toList,
              "3\t2025-01-01\t10:20:00\ta.x\t/a.x".toList], .missing, .missing⟩

/-- Witness for C5 (amended): three entries from a.x (twice) and b.x (once)
report exactly [(a.x, 2), (b.x, 1)]. -/
theorem top_sources_spec_check :
    get_log_stats fsAB = some (statsOf fsAB) ∧
    (statsOf fsAB).topSources = [("a.x".toList, 2), ("b.x".toList, 1)] ∧
    (statsOf fsAB).topSources =
      (List.insertionSort countLE (sourceCounts ((mergedView fsAB).map toStats))).take 5 ∧
    (statsOf fsAB).topSources.length ≤ 5 := by
  have h : get_log_stats fsAB = some (statsOf fsAB) := by decide
  have main := top_sources_spec fsAB (statsOf fsAB) h
  exact ⟨h, by decide, main.1, main.2.1⟩

/-- Counterexample to C8 as stated: in an execution context where
introspection yields no current frame — a context in which the caller
cannot be determined — the unguarded `frame.f_back` raises instead of
returning the sentinel pair. -/
theorem caller_info_raises_cex :
    get_caller_info none = .raises ∧
    ¬(get_caller_info none = .ok (unknownName, unknownName)) := by
  decide

/-- C8 (amended): when the current frame and its parent exist but the
frame two levels up is absent, `get_caller_info` returns the sentinel
("Unknown", "Unknown"); when the chain is two frames deeper it returns the
caller's base name and full path; but when the current frame or its parent
is absent, an attribute access on None raises. It is a pure function. -/
theorem caller_info_behavior :
    (∀ fn0 fn1 : Line,
      get_caller_info (some (.mk fn0 (some (.mk fn1 none)))) =
        .ok (unknownName, unknownName)) ∧
    (∀ (fn0 fn1 : Line) (f2 : Frame),
      get_caller_info (some (.mk fn0 (some (.mk fn1 (some f2))))) =
        .ok (basename f2.filename, f2.filename)) ∧
    (∀ fn0 : Line, get_caller_info (some (.mk fn0 none)) = .raises) ∧
    get_caller_info none = .raises :=
  ⟨fun _ _ => rfl, fun _ _ _ => rfl, fun _ => rfl, rfl⟩

example : parsePyInt " 17 ".toList = some 17 := by decide

example : parsePyInt "-5".toList = some (-5) := by decide

example : parsePyInt "abc".toList = none := by decide

example : splitTab "a\tb\t".toList = ["a".toList, "b".toList, []] := by decide

example : get_next_call_number ⟨.missing, .missing, .missing⟩ = 1 := by decide

example :
    get_next_call_number ⟨.readable ["5\t2025-01-01\t10:00:00\ta.x\t/a.x".toList], .missing, .missing⟩ = 6 := by
  decide

example :
    mergedView ⟨.readable ["1\t2025-01-01\t10:00:00\tb.x\t/b.x".toList,
                           "2\t2025-01-01\t10:00:01\ta.x\t/a.x".toList], .missing, .missing⟩ =
      [⟨2, "2025-01-01".toList, "10:00:01".toList, "a.x".toList, "/a.x".toList⟩,
       ⟨1, "2025-01-01".toList, "10:00:00".toList, "b.x".toList, "/b.x".toList⟩] := by
  decide

end NeuroLog
